import Mathlib

/-!
Verification of the two self-written algorithms of the LAMA2020 notebooks:

* classical Gram-Schmidt orthonormalization (`GS`), written over an abstract
  real vector space with a supplied inner-product function, exactly as the
  notebook's `GS(v_list)` is written over sympy expressions with the supplied
  `inner(f,g)` and `norm(f) = sqrt(inner(f,f))`;
* the unshifted QR iteration loop (`qrLoop` / `qrAlg`), written over square
  real matrices with an injected QR-factorization function, exactly as the
  notebook's `while np.linalg.norm(np.tril(A,-1)) > epsilon*np.linalg.norm(A)`
  loop followed by `np.sort(np.diag(A))`.

The concrete Axler 6.B.5 demonstration (`1, x, x^2` under the inner product
`integral of f*g over [0,1]`) is embedded over `Polynomial ℝ` with the real
interval integral.
-/

open Polynomial

noncomputable section

/-! ## Gram-Schmidt: the notebook's `GS` -/

/-- One projection subtraction of the notebook's inner loop:
`v = v - inner(v,e)*e`. -/
def innerStep {V : Type*} [AddCommGroup V] [Module ℝ V]
    (inn : V → V → ℝ) (u e : V) : V :=
  u - inn u e • e

/-- The notebook's inner `for e in e_list` loop: subtract from `v` its
projection onto each `e`, sequentially against the running value. -/
def orthoStep {V : Type*} [AddCommGroup V] [Module ℝ V]
    (inn : V → V → ℝ) (es : List V) (v : V) : V :=
  es.foldl (innerStep inn) v

/-- The notebook's `norm(f) = sqrt(inner(f,f))`. -/
def nrm {V : Type*} [AddCommGroup V] [Module ℝ V]
    (inn : V → V → ℝ) (f : V) : ℝ :=
  Real.sqrt (inn f f)

/-- The notebook's outer `for v in v_list` loop with its accumulating
`e_list`: orthogonalize `v` against the previous `e`'s, renormalize
(`e = v/v_nrm`), append. -/
def GSgo {V : Type*} [AddCommGroup V] [Module ℝ V]
    (inn : V → V → ℝ) : List V → List V → List V
  | es, [] => es
  | es, v :: vs =>
      GSgo inn
        (es ++ [(nrm inn (orthoStep inn es v))⁻¹ • orthoStep inn es v]) vs

/-- The notebook's `GS(v_list)`: classical Gram-Schmidt orthonormalization. -/
def GS {V : Type*} [AddCommGroup V] [Module ℝ V]
    (inn : V → V → ℝ) (v_list : List V) : List V :=
  GSgo inn [] v_list

/-- Modelled from the spec: the variant of the projection step that computes
all projections against the original vector simultaneously, for comparison
with the sequential `orthoStep` the code uses. -/
def orthoStepSim {V : Type*} [AddCommGroup V] [Module ℝ V]
    (inn : V → V → ℝ) (es : List V) (v : V) : V :=
  v - (es.map (fun e => inn v e • e)).sum

/-- Modelled from the spec: Gram-Schmidt with the simultaneous projection
step, same outer loop. -/
def GSsimGo {V : Type*} [AddCommGroup V] [Module ℝ V]
    (inn : V → V → ℝ) : List V → List V → List V
  | es, [] => es
  | es, v :: vs =>
      GSsimGo inn
        (es ++ [(nrm inn (orthoStepSim inn es v))⁻¹ • orthoStepSim inn es v]) vs

/-- Modelled from the spec: Gram-Schmidt with the simultaneous projection
step. -/
def GSsim {V : Type*} [AddCommGroup V] [Module ℝ V]
    (inn : V → V → ℝ) (v_list : List V) : List V :=
  GSsimGo inn [] v_list

/-- The spec's InnerProductSpace contract for the supplied `inner` function:
symmetric, bilinear, positive-definite. -/
structure IsInner {V : Type*} [AddCommGroup V] [Module ℝ V]
    (inn : V → V → ℝ) : Prop where
  symm : ∀ a b, inn a b = inn b a
  add_left : ∀ a b c, inn (a + b) c = inn a c + inn b c
  smul_left : ∀ (r : ℝ) (a b), inn (r • a) b = r * inn a b
  nonneg : ∀ a, 0 ≤ inn a a
  definite : ∀ a, inn a a = 0 → a = 0

/-- Span of the set of elements of a list. -/
def spanL {V : Type*} [AddCommGroup V] [Module ℝ V] (l : List V) : Submodule ℝ V :=
  Submodule.span ℝ {x | x ∈ l}

/-- Each vector of the list avoids the span of the submodule accumulated so
far (the list is linearly independent over `S`). -/
def IndepFrom {V : Type*} [AddCommGroup V] [Module ℝ V]
    (S : Submodule ℝ V) : List V → Prop
  | [] => True
  | v :: vs => v ∉ S ∧ IndepFrom (S ⊔ Submodule.span ℝ {v}) vs

/-- Orthonormal list: unit self inner products and pairwise zero inner
products. -/
def ONL {V : Type*} [AddCommGroup V] [Module ℝ V]
    (inn : V → V → ℝ) (es : List V) : Prop :=
  (∀ e ∈ es, inn e e = 1) ∧ es.Pairwise (fun a b => inn a b = 0)

/-- The one-dimensional real inner product, for concrete instances. -/
def mulInn (a b : ℝ) : ℝ := a * b

/-- The notebook's `inner(f,g) = integrate(f*g,(x,0,1))` on real
polynomials. -/
def innPoly (p q : ℝ[X]) : ℝ :=
  ∫ t in (0:ℝ)..1, p.eval t * q.eval t

/-! ## QR iteration: the notebook's while-loop (cell 55) -/

/-- The loop body `Q,R = qr(A); A = R@Q`, as a function of the factor pair. -/
def qrStep {n : ℕ} (p : Matrix (Fin n) (Fin n) ℝ × Matrix (Fin n) (Fin n) ℝ) :
    Matrix (Fin n) (Fin n) ℝ :=
  p.2 * p.1

/-- The strictly lower triangular part of `A`, as `np.tril(A,-1)` computes it. -/
def tril1 {n : ℕ} (A : Matrix (Fin n) (Fin n) ℝ) : Matrix (Fin n) (Fin n) ℝ :=
  Matrix.of fun i j => if (j : ℕ) < (i : ℕ) then A i j else 0

/-- The Frobenius norm, which is what `np.linalg.norm(A)` computes on a matrix. -/
def frobNorm {n : ℕ} (A : Matrix (Fin n) (Fin n) ℝ) : ℝ :=
  Real.sqrt (∑ i, ∑ j, (A i j) ^ 2)

/-- The notebook's `while np.linalg.norm(np.tril(A,-1)) > epsilon*np.linalg.norm(A)`
loop, with the injected factorization `qr` and a fuel bound on the number of
observed steps: `some A'` means the loop has terminated with final iterate
`A'` within `fuel` steps, `none` that it is still running after `fuel`
steps (the code itself has no iteration bound). -/
def qrLoop {n : ℕ}
    (qr : Matrix (Fin n) (Fin n) ℝ → Matrix (Fin n) (Fin n) ℝ × Matrix (Fin n) (Fin n) ℝ)
    (epsilon : ℝ) : ℕ → Matrix (Fin n) (Fin n) ℝ → Option (Matrix (Fin n) (Fin n) ℝ)
  | 0, A => if frobNorm (tril1 A) ≤ epsilon * frobNorm A then some A else none
  | fuel + 1, A =>
      if frobNorm (tril1 A) ≤ epsilon * frobNorm A then some A
      else qrLoop qr epsilon fuel (qrStep (qr A))

/-- The diagonal `np.diag(A)`, as a list. -/
def diagList {n : ℕ} (A : Matrix (Fin n) (Fin n) ℝ) : List ℝ :=
  List.ofFn fun i => A i i

/-- The notebook's reported result `np.sort(np.diag(A))` on the final
iterate of the loop. -/
def qrAlg {n : ℕ}
    (qr : Matrix (Fin n) (Fin n) ℝ → Matrix (Fin n) (Fin n) ℝ × Matrix (Fin n) (Fin n) ℝ)
    (epsilon : ℝ) (fuel : ℕ) (A : Matrix (Fin n) (Fin n) ℝ) : Option (List ℝ) :=
  (qrLoop qr epsilon fuel A).map fun M => (diagList M).insertionSort (· ≤ ·)

/-! ## Concrete instances used in the analysis -/

/-- A diagonal test matrix with unsorted diagonal `[2, 1]`. -/
def dMat : Matrix (Fin 2) (Fin 2) ℝ := Matrix.of ![![2, 0], ![0, 1]]

/-- A trivial injected factorization, never consulted by runs that converge
immediately. -/
def qrId {n : ℕ} (A : Matrix (Fin n) (Fin n) ℝ) :
    Matrix (Fin n) (Fin n) ℝ × Matrix (Fin n) (Fin n) ℝ :=
  (1, A)

/-- The 90 degree rotation: an oscillatory matrix with eigenvalues `±i`. -/
def rotM : Matrix (Fin 2) (Fin 2) ℝ := Matrix.of ![![0, -1], ![1, 0]]

/-- An injected QR factorization that returns `(M, I)`; at every iterate the
loop reaches from `rotM` this satisfies the QR contract (`M` orthogonal,
`I` upper triangular, `M * I = M`). -/
def qrSpin {n : ℕ} (M : Matrix (Fin n) (Fin n) ℝ) :
    Matrix (Fin n) (Fin n) ℝ × Matrix (Fin n) (Fin n) ℝ :=
  (M, 1)

/-- The notebook's `epsilon = 1.0E-08`. -/
def eps8 : ℝ := 1 / 100000000

end

/-! ## Derived facts about the inner-product contract -/

variable {V : Type*} [AddCommGroup V] [Module ℝ V] {inn : V → V → ℝ}

theorem IsInner.smul_right (h : IsInner inn) (r : ℝ) (a b : V) :
    inn a (r • b) = r * inn a b := by
  rw [h.symm, h.smul_left, h.symm]

theorem IsInner.add_right (h : IsInner inn) (a b c : V) :
    inn a (b + c) = inn a b + inn a c := by
  rw [h.symm, h.add_left, h.symm b a, h.symm c a]

theorem IsInner.sub_left (h : IsInner inn) (a b c : V) :
    inn (a - b) c = inn a c - inn b c := by
  have hab : a - b = a + (-1 : ℝ) • b := by
    simp [sub_eq_add_neg]
  rw [hab, h.add_left, h.smul_left]
  ring

theorem IsInner.sub_right (h : IsInner inn) (a b c : V) :
    inn a (b - c) = inn a b - inn a c := by
  rw [h.symm, h.sub_left, h.symm b a, h.symm c a]

theorem IsInner.inn_self_pos (h : IsInner inn) {v : V} (hv : v ≠ 0) :
    0 < inn v v :=
  lt_of_le_of_ne (h.nonneg v) fun e => hv (h.definite v e.symm)

theorem IsInner.nrm_pos (h : IsInner inn) {v : V} (hv : v ≠ 0) :
    0 < nrm inn v :=
  Real.sqrt_pos.mpr (h.inn_self_pos hv)

theorem IsInner.nrm_sq (h : IsInner inn) (v : V) :
    nrm inn v * nrm inn v = inn v v :=
  Real.mul_self_sqrt (h.nonneg v)

/-! ## Facts about the projection loop `orthoStep` -/

theorem orthoStep_nil (v : V) : orthoStep inn [] v = v := rfl

theorem orthoStep_cons (e : V) (es : List V) (v : V) :
    orthoStep inn (e :: es) v = orthoStep inn es (innerStep inn v e) := rfl

/-- Orthogonality to a fixed vector `e` is preserved along the projection
loop, provided every subtracted direction is orthogonal to `e`. -/
theorem orthoStep_inner_fixed (h : IsInner inn) (e : V) :
    ∀ (es : List V) (u : V), (∀ f ∈ es, inn f e = 0) → inn u e = 0 →
      inn (orthoStep inn es u) e = 0
  | [], _, _, hu => hu
  | f :: es, u, hes, hu => by
    rw [orthoStep_cons]
    have hf : inn f e = 0 := hes f (by simp)
    have hstep : inn (innerStep inn u f) e = 0 := by
      unfold innerStep
      rw [h.sub_left, h.smul_left, hf, hu]
      ring
    exact orthoStep_inner_fixed h e es (innerStep inn u f)
      (fun g hg => hes g (by simp [hg])) hstep

/-- Over an orthonormal list, the result of the projection loop is
orthogonal to every member of the list. -/
theorem orthoStep_orth (h : IsInner inn) :
    ∀ (es : List V), (∀ e ∈ es, inn e e = 1) →
      es.Pairwise (fun a b => inn a b = 0) →
      ∀ (v : V), ∀ e ∈ es, inn (orthoStep inn es v) e = 0
  | [], _, _, _, _, he => by simp at he
  | e :: es, hu, hp, v, f, hf => by
    rw [List.pairwise_cons] at hp
    rw [orthoStep_cons]
    rcases List.mem_cons.mp hf with rfl | hf'
    · refine orthoStep_inner_fixed h f es (innerStep inn v f)
        (fun g hg => (h.symm g f).trans (hp.1 g hg)) ?_
      unfold innerStep
      rw [h.sub_left, h.smul_left, hu f (by simp)]
      ring
    · exact orthoStep_orth h es (fun g hg => hu g (by simp [hg])) hp.2
        (innerStep inn v e) _ hf'

/-! ## Facts about list spans -/

theorem spanL_nil : spanL ([] : List V) = ⊥ := by
  simp [spanL, Set.setOf_false]

theorem spanL_cons (v : V) (l : List V) :
    spanL (v :: l) = Submodule.span ℝ {v} ⊔ spanL l := by
  unfold spanL
  rw [← Submodule.span_union]
  congr 1
  ext x
  simp

theorem spanL_append (l₁ l₂ : List V) :
    spanL (l₁ ++ l₂) = spanL l₁ ⊔ spanL l₂ := by
  unfold spanL
  rw [← Submodule.span_union]
  congr 1
  ext x
  simp

theorem spanL_mono {l₁ l₂ : List V} (h : ∀ x ∈ l₁, x ∈ l₂) :
    spanL l₁ ≤ spanL l₂ :=
  Submodule.span_mono h

theorem mem_spanL_of_mem {l : List V} {x : V} (h : x ∈ l) : x ∈ spanL l :=
  Submodule.subset_span h

/-- The projection loop changes its input by an element of the span of the
subtracted directions. -/
theorem sub_orthoStep_mem (inn : V → V → ℝ) :
    ∀ (es : List V) (v : V), v - orthoStep inn es v ∈ spanL es
  | [], v => by simp [orthoStep_nil]
  | e :: es, v => by
    rw [orthoStep_cons]
    have hsplit : v - orthoStep inn es (innerStep inn v e)
        = inn v e • e
          + (innerStep inn v e - orthoStep inn es (innerStep inn v e)) := by
      unfold innerStep
      abel
    rw [hsplit]
    exact Submodule.add_mem _
      (Submodule.smul_mem _ _ (mem_spanL_of_mem (by simp)))
      (spanL_mono (fun x hx => by simp [hx]) (sub_orthoStep_mem inn es _))

/-! ## The Gram-Schmidt step and the main invariant -/

/-- One outer-loop step of `GS`: starting from an orthonormal accumulator
whose span misses `v`, appending the renormalized residual keeps the
accumulator orthonormal and extends its span by `v`. -/
theorem GS_step (h : IsInner inn) {es : List V} {v : V}
    (hON : ONL inn es) (hv : v ∉ spanL es) :
    ONL inn (es ++ [(nrm inn (orthoStep inn es v))⁻¹ • orthoStep inn es v]) ∧
      spanL (es ++ [(nrm inn (orthoStep inn es v))⁻¹ • orthoStep inn es v])
        = spanL es ⊔ Submodule.span ℝ {v} := by
  set w := orthoStep inn es v with hw
  have hwsub : v - w ∈ spanL es := sub_orthoStep_mem inn es v
  have hwne : w ≠ 0 := by
    intro h0
    apply hv
    simpa [h0] using hwsub
  have hnrm : 0 < nrm inn w := h.nrm_pos hwne
  set e' := (nrm inn w)⁻¹ • w with he'
  have hworth : ∀ f ∈ es, inn w f = 0 := fun f hf =>
    orthoStep_orth h es hON.1 hON.2 v f hf
  have he'orth : ∀ f ∈ es, inn e' f = 0 := fun f hf => by
    rw [he', h.smul_left, hworth f hf, mul_zero]
  have he'unit : inn e' e' = 1 := by
    rw [he', h.smul_left, h.smul_right, ← h.nrm_sq w]
    field_simp
  have hONnew : ONL inn (es ++ [e']) := by
    constructor
    · intro e he
      rcases List.mem_append.mp he with he1 | he2
      · exact hON.1 e he1
      · rw [List.mem_singleton.mp he2]
        exact he'unit
    · rw [List.pairwise_append]
      refine ⟨hON.2, List.pairwise_singleton _ _, ?_⟩
      intro a ha b hb
      rw [List.mem_singleton.mp hb, h.symm]
      exact he'orth a ha
  have he'mem : e' ∈ spanL es ⊔ Submodule.span ℝ {v} := by
    apply Submodule.smul_mem
    have hvmem : v ∈ spanL es ⊔ Submodule.span ℝ {v} :=
      Submodule.mem_sup_right (Submodule.mem_span_singleton_self v)
    have hsubmem : v - w ∈ spanL es ⊔ Submodule.span ℝ {v} :=
      Submodule.mem_sup_left hwsub
    have : w = v - (v - w) := by abel
    rw [this]
    exact Submodule.sub_mem _ hvmem hsubmem
  have hvmem' : v ∈ spanL (es ++ [e']) := by
    have hwmem : w ∈ spanL (es ++ [e']) := by
      have he'in : e' ∈ spanL (es ++ [e']) := mem_spanL_of_mem (by simp)
      have : w = nrm inn w • e' := by
        rw [he', smul_inv_smul₀ hnrm.ne']
      rw [this]
      exact Submodule.smul_mem _ _ he'in
    have hsubmem : v - w ∈ spanL (es ++ [e']) :=
      spanL_mono (fun x hx => by simp [hx]) hwsub
    have : v = w + (v - w) := by abel
    rw [this]
    exact Submodule.add_mem _ hwmem hsubmem
  refine ⟨hONnew, le_antisymm ?_ ?_⟩
  · apply Submodule.span_le.mpr
    intro x hx
    rcases List.mem_append.mp hx with hx1 | hx2
    · exact Submodule.mem_sup_left (mem_spanL_of_mem hx1)
    · rw [List.mem_singleton.mp hx2]
      exact he'mem
  · apply sup_le
    · exact spanL_mono fun x hx => by simp [hx]
    · rw [Submodule.span_le]
      intro x hx
      rw [Set.mem_singleton_iff.mp hx]
      exact hvmem'

/-- The main invariant of the outer loop: from an orthonormal accumulator
over which the remaining inputs are independent, `GSgo` returns an
orthonormal list spanning the accumulator's span joined with the span of
the inputs. -/
theorem GSgo_spec (h : IsInner inn) :
    ∀ (vs es : List V), ONL inn es → IndepFrom (spanL es) vs →
      ONL inn (GSgo inn es vs) ∧
        spanL (GSgo inn es vs) = spanL es ⊔ spanL vs
  | [], es, hON, _ => by
    refine ⟨hON, ?_⟩
    simp [GSgo, spanL_nil]
  | v :: vs, es, hON, hInd => by
    obtain ⟨hv, hInd'⟩ := hInd
    obtain ⟨hON', hsp⟩ := GS_step h hON hv
    have hInd'' : IndepFrom
        (spanL (es ++ [(nrm inn (orthoStep inn es v))⁻¹ • orthoStep inn es v]))
        vs := by
      rw [hsp]
      exact hInd'
    obtain ⟨hONout, hspout⟩ := GSgo_spec h vs _ hON' hInd''
    refine ⟨hONout, ?_⟩
    show spanL (GSgo inn (es ++ [_]) vs) = _
    rw [hspout, hsp, spanL_cons, sup_assoc]

/-! ## Sequential versus simultaneous projections -/

/-- Subtracting a multiple of a direction orthogonal to every remaining
direction commutes with the rest of the projection loop. -/
theorem orthoStep_sub_smul (h : IsInner inn) (e : V) (c : ℝ) :
    ∀ (es : List V) (u : V), (∀ f ∈ es, inn e f = 0) →
      orthoStep inn es (u - c • e) = orthoStep inn es u - c • e
  | [], u, _ => rfl
  | f :: es, u, hes => by
    rw [orthoStep_cons, orthoStep_cons]
    have hef : inn e f = 0 := hes f (by simp)
    have hstep : innerStep inn (u - c • e) f = innerStep inn u f - c • e := by
      unfold innerStep
      rw [h.sub_left, h.smul_left, hef, mul_zero, sub_zero]
      abel
    rw [hstep]
    exact orthoStep_sub_smul h e c es (innerStep inn u f)
      fun g hg => hes g (by simp [hg])

/-- Over a pairwise orthogonal list the sequential projection loop computes
the same vector as subtracting all projections of the original vector
simultaneously. -/
theorem orthoStep_eq_sim (h : IsInner inn) :
    ∀ (es : List V), es.Pairwise (fun a b => inn a b = 0) →
      ∀ v, orthoStep inn es v = orthoStepSim inn es v
  | [], _, v => by simp [orthoStep_nil, orthoStepSim]
  | e :: es, hp, v => by
    rw [List.pairwise_cons] at hp
    rw [orthoStep_cons]
    show orthoStep inn es (v - inn v e • e) = _
    rw [orthoStep_sub_smul h e (inn v e) es v hp.1,
      orthoStep_eq_sim h es hp.2 v]
    unfold orthoStepSim
    rw [List.map_cons, List.sum_cons]
    abel

/-- With linearly independent remaining inputs, the sequential and the
simultaneous Gram-Schmidt loops coincide step by step. -/
theorem GSgo_eq_simGo (h : IsInner inn) :
    ∀ (vs es : List V), ONL inn es → IndepFrom (spanL es) vs →
      GSgo inn es vs = GSsimGo inn es vs
  | [], _, _, _ => rfl
  | v :: vs, es, hON, hInd => by
    obtain ⟨hv, hInd'⟩ := hInd
    obtain ⟨hON', hsp⟩ := GS_step h hON hv
    have hsim : orthoStepSim inn es v = orthoStep inn es v :=
      (orthoStep_eq_sim h es hON.2 v).symm
    show GSgo inn (es ++ [_]) vs = GSsimGo inn (es ++ [_]) vs
    rw [hsim]
    exact GSgo_eq_simGo h vs _ hON' (by rw [hsp]; exact hInd')

/-! ## Structure of the outer loop -/

theorem GSgo_append_input (inn : V → V → ℝ) :
    ∀ (l₁ l₂ es : List V),
      GSgo inn es (l₁ ++ l₂) = GSgo inn (GSgo inn es l₁) l₂
  | [], _, _ => rfl
  | v :: l₁, l₂, es => GSgo_append_input inn l₁ l₂ _

theorem GSgo_length (inn : V → V → ℝ) :
    ∀ (vs es : List V), (GSgo inn es vs).length = es.length + vs.length
  | [], es => by simp [GSgo]
  | v :: vs, es => by
    rw [show GSgo inn es (v :: vs) = GSgo inn (es ++ [_]) vs from rfl,
      GSgo_length inn vs]
    simp
    omega

theorem GSgo_accum_le (inn : V → V → ℝ) :
    ∀ (vs es : List V), es <+: GSgo inn es vs
  | [], es => List.prefix_refl es
  | v :: vs, es =>
    List.IsPrefix.trans ⟨[_], rfl⟩ (GSgo_accum_le inn vs (es ++ [_]))

theorem take_append_of_length {α : Type*} {l₁ l₂ : List α} {j : ℕ}
    (h : l₁.length = j) : (l₁ ++ l₂).take j = l₁ := by
  subst h
  exact List.take_left l₁ l₂

/-- Classical Gram-Schmidt is prefix-stable: the first `j` outputs are the
outputs on the first `j` inputs. -/
theorem GS_take (inn : V → V → ℝ) (vs : List V) {j : ℕ} (hj : j ≤ vs.length) :
    (GS inn vs).take j = GS inn (vs.take j) := by
  have hsplit : GS inn vs = GSgo inn (GS inn (vs.take j)) (vs.drop j) := by
    unfold GS
    rw [← GSgo_append_input, List.take_append_drop]
  obtain ⟨r, hr⟩ := GSgo_accum_le inn (vs.drop j) (GS inn (vs.take j))
  have hlen : (GS inn (vs.take j)).length = j := by
    unfold GS
    rw [GSgo_length]
    simpa using hj
  rw [hsplit, ← hr, take_append_of_length hlen]

/-! ## Linear independence gives the stepwise independence predicate -/

theorem indepFrom_of_linearIndependent :
    ∀ (vs us : List V), LinearIndependent ℝ (us ++ vs).get →
      IndepFrom (spanL us) vs
  | [], _, _ => trivial
  | v :: vs, us, hli => by
    constructor
    · intro hvmem
      have hklt : us.length < (us ++ v :: vs).length := by
        simp
      have hgk : (us ++ v :: vs).get ⟨us.length, hklt⟩ = v := by
        rw [List.get_eq_getElem, List.getElem_append_right (le_refl us.length)]
        simp
      have hks : (⟨us.length, hklt⟩ : Fin (us ++ v :: vs).length) ∉
          {i : Fin (us ++ v :: vs).length | (i : ℕ) < us.length} := by
        simp
      have hnot := hli.not_mem_span_image hks
      apply hnot
      rw [hgk]
      refine Submodule.span_mono ?_ hvmem
      intro x hx
      obtain ⟨⟨jj, hjj⟩, hxe⟩ := List.mem_iff_get.mp hx
      refine ⟨⟨jj, lt_of_lt_of_le hjj (by simp)⟩, by simpa using hjj, ?_⟩
      rw [← hxe]
      simp [List.get_eq_getElem]
      rw [List.getElem_append_left hjj]
    · have heq : spanL us ⊔ Submodule.span ℝ {v} = spanL (us ++ [v]) := by
        rw [spanL_append, spanL_cons, spanL_nil, sup_bot_eq]
      rw [heq]
      refine indepFrom_of_linearIndependent vs (us ++ [v]) ?_
      have hassoc : us ++ [v] ++ vs = us ++ v :: vs := by simp
      rw [hassoc]
      exact hli

theorem indepFrom_bot {vs : List V} (hli : LinearIndependent ℝ vs.get) :
    IndepFrom (⊥ : Submodule ℝ V) vs := by
  have h := indepFrom_of_linearIndependent vs [] hli
  rwa [spanL_nil] at h

theorem ONL_nil : ONL inn ([] : List V) :=
  ⟨fun _ he => absurd he (List.not_mem_nil _), List.Pairwise.nil⟩

/-- Restriction of a linearly independent list to a prefix. -/
theorem linearIndependent_take {vs : List V}
    (hli : LinearIndependent ℝ vs.get) (j : ℕ) :
    LinearIndependent ℝ (vs.take j).get := by
  have hle : (vs.take j).length ≤ vs.length := by
    simp [List.length_take]
  have hcomp : (vs.take j).get = vs.get ∘ Fin.castLE hle := by
    funext i
    simp [List.get_eq_getElem, Fin.castLE]
  rw [hcomp]
  exact hli.comp _ (Fin.castLE_injective hle)

/-! ## The one-dimensional concrete instance -/

theorem isInner_mulInn : IsInner mulInn := by
  constructor
  · intro a b
    simp [mulInn, mul_comm]
  · intro a b c
    simp [mulInn, add_mul]
  · intro r a b
    simp [mulInn]
    ring
  · intro a
    simpa [mulInn] using mul_self_nonneg a
  · intro a ha
    simpa [mulInn, mul_self_eq_zero] using ha

theorem li_two : LinearIndependent ℝ ([(2 : ℝ)]).get := by
  have h : LinearIndependent ℝ fun _ : Fin 1 => (2 : ℝ) :=
    linearIndependent_unique _ (by norm_num)
  have he : ([(2 : ℝ)]).get = fun _ : Fin 1 => (2 : ℝ) := by
    funext i
    fin_cases i
    rfl
  rw [he]
  exact h

/-! ## Claims C1, C2, C9 -/

/-- C1: for every linearly independent input list, the output of `GS` is
orthonormal under the supplied inner product, in the exact symbolic
arithmetic the code uses: every pairwise inner product of two outputs at
distinct positions is 0, and every output has norm exactly 1. -/
theorem C1_GS_orthonormal (inn : V → V → ℝ) (h : IsInner inn) (vs : List V)
    (hli : LinearIndependent ℝ vs.get) :
    (∀ e ∈ GS inn vs, nrm inn e = 1) ∧
      ∀ (i j : Fin (GS inn vs).length), i ≠ j →
        inn ((GS inn vs).get i) ((GS inn vs).get j) = 0 := by
  obtain ⟨⟨hunit, hpair⟩, _⟩ :=
    GSgo_spec h vs [] ONL_nil (by rw [spanL_nil]; exact indepFrom_bot hli)
  constructor
  · intro e he
    rw [nrm, hunit e he, Real.sqrt_one]
  · intro i j hij
    have hlt := List.pairwise_iff_get.mp hpair
    rcases lt_or_gt_of_ne hij with hij' | hij'
    · exact hlt i j hij'
    · rw [h.symm]
      exact hlt j i hij'

theorem C1_GS_orthonormal_witness :
    IsInner mulInn ∧ LinearIndependent ℝ ([(2 : ℝ)]).get ∧
      ((∀ e ∈ GS mulInn [(2 : ℝ)], nrm mulInn e = 1) ∧
        ∀ (i j : Fin (GS mulInn [(2 : ℝ)]).length), i ≠ j →
          mulInn ((GS mulInn [(2 : ℝ)]).get i) ((GS mulInn [(2 : ℝ)]).get j) = 0) :=
  ⟨isInner_mulInn, li_two, C1_GS_orthonormal mulInn isInner_mulInn _ li_two⟩

/-- C2: for every linearly independent input list of length `n` and every
`1 ≤ j ≤ n`, the first `j` outputs of `GS` span the same subspace as the
first `j` inputs. -/
theorem C2_GS_prefix_span (inn : V → V → ℝ) (h : IsInner inn) (vs : List V)
    (hli : LinearIndependent ℝ vs.get) (j : ℕ) (hj1 : 1 ≤ j)
    (hj2 : j ≤ vs.length) :
    Submodule.span ℝ {x | x ∈ (GS inn vs).take j}
      = Submodule.span ℝ {x | x ∈ vs.take j} := by
  obtain ⟨_, hsp⟩ := GSgo_spec h (vs.take j) [] ONL_nil
    (by rw [spanL_nil]; exact indepFrom_bot (linearIndependent_take hli j))
  show spanL ((GS inn vs).take j) = spanL (vs.take j)
  rw [GS_take inn vs hj2]
  show spanL (GSgo inn [] (vs.take j)) = spanL (vs.take j)
  rw [hsp, spanL_nil, bot_sup_eq]

theorem C2_GS_prefix_span_witness :
    IsInner mulInn ∧ LinearIndependent ℝ ([(2 : ℝ)]).get ∧ 1 ≤ 1 ∧
      1 ≤ ([(2 : ℝ)]).length ∧
      Submodule.span ℝ {x | x ∈ (GS mulInn [(2 : ℝ)]).take 1}
        = Submodule.span ℝ {x | x ∈ ([(2 : ℝ)]).take 1} :=
  ⟨isInner_mulInn, li_two, le_refl 1, by norm_num,
    C2_GS_prefix_span mulInn isInner_mulInn _ li_two 1 (le_refl 1) (by norm_num)⟩

/-- C9: in exact arithmetic, on every linearly independent input list the
code's classical Gram-Schmidt (projections subtracted sequentially against
the running residual) returns exactly the same list as the variant that
computes all projections against the original vector simultaneously. -/
theorem C9_GS_eq_simultaneous (inn : V → V → ℝ) (h : IsInner inn)
    (vs : List V) (hli : LinearIndependent ℝ vs.get) :
    GS inn vs = GSsim inn vs :=
  GSgo_eq_simGo h vs [] ONL_nil (by rw [spanL_nil]; exact indepFrom_bot hli)

theorem C9_GS_eq_simultaneous_witness :
    IsInner mulInn ∧ LinearIndependent ℝ ([(2 : ℝ)]).get ∧
      GS mulInn [(2 : ℝ)] = GSsim mulInn [(2 : ℝ)] :=
  ⟨isInner_mulInn, li_two, C9_GS_eq_simultaneous mulInn isInner_mulInn _ li_two⟩

/-! ## Claims C4, C5: degenerate and empty inputs to GS -/

/-- C4 (amended): on the dependent input `[v, 2v]` with `v ≠ 0`, the code
raises nothing: the residual at index 1 is exactly zero, the code divides
by the zero norm, and the returned list carries the degenerate value
(the zero vector of the embedding, `nan` in sympy) at index 1. -/
theorem C4_GS_dependent_garbage (inn : V → V → ℝ) (h : IsInner inn) (v : V)
    (hv : v ≠ 0) :
    GS inn [v, (2 : ℝ) • v] = [(nrm inn v)⁻¹ • v, 0] := by
  have hnrm : nrm inn v ≠ 0 := (h.nrm_pos hv).ne'
  have hw : orthoStep inn [(nrm inn v)⁻¹ • v] ((2 : ℝ) • v) = 0 := by
    show innerStep inn ((2 : ℝ) • v) ((nrm inn v)⁻¹ • v) = 0
    unfold innerStep
    rw [h.smul_left, h.smul_right, smul_smul, ← h.nrm_sq v, ← sub_smul]
    convert zero_smul ℝ v using 2
    field_simp
  have hzero : inn (0 : V) (0 : V) = 0 := by
    simpa using h.smul_left 0 0 0
  have hnrm0 : nrm inn (0 : V) = 0 := by
    rw [nrm, hzero, Real.sqrt_zero]
  simp only [GS, GSgo, List.nil_append, orthoStep_nil, hw, hnrm0, smul_zero]
  rfl

theorem C4_GS_dependent_garbage_witness :
    (1 : ℝ) ≠ 0 ∧ IsInner mulInn ∧
      GS mulInn [(1 : ℝ), (2 : ℝ) • (1 : ℝ)] = [(nrm mulInn 1)⁻¹ • 1, 0] :=
  ⟨one_ne_zero, isInner_mulInn,
    C4_GS_dependent_garbage mulInn isInner_mulInn 1 one_ne_zero⟩

/-- C4 counterexample to the claim as stated: on the concrete dependent
input `[1, 2]` (that is, `[v, 2v]` with `v = 1` in the one-dimensional
space), `GS` does not fail: it returns a full two-element list, whose
index-1 entry is the degenerate zero vector. -/
theorem C4_counterexample :
    GS mulInn [(1 : ℝ), 2] = [1, 0] ∧ (GS mulInn [(1 : ℝ), 2]).length = 2 := by
  have h1 : GS mulInn [(1 : ℝ), 2] = [1, 0] := by
    simp only [GS, GSgo, List.nil_append, orthoStep_nil, orthoStep_cons]
    norm_num [innerStep, mulInn, nrm, Real.sqrt_one, orthoStep_nil]
  exact ⟨h1, by rw [h1]; rfl⟩

/-- C5 (amended): the orthonormalizer does no input validation: on the
empty vector list it simply returns the empty list, with no error of any
kind. -/
theorem C5_GS_empty (inn : V → V → ℝ) : GS inn ([] : List V) = [] := rfl

/-- C5 counterexample to the claim as stated: calling the orthonormalizer
on the empty list does not raise `InvalidArgumentError`; it returns the
empty list normally. -/
theorem C5_counterexample : GS mulInn ([] : List ℝ) = [] := rfl

/-! ## Claim C6: each QR iteration step is a similarity transform -/

/-- C6: whenever the injected factorization returns `(Q, R)` with `Q`
orthonormal and `Q * R = A`, the next iterate `R * Q` of the loop body is
the similarity transform `Q⁻¹ * A * Q`; consequently trace, determinant
and every value of the characteristic determinant (hence the eigenvalues)
agree with those of `A`. -/
theorem C6_qrStep_similarity {n : ℕ} (Q R A : Matrix (Fin n) (Fin n) ℝ)
    (hQ : Q.transpose * Q = 1) (hA : Q * R = A) :
    qrStep (Q, R) = Q⁻¹ * A * Q ∧
      (qrStep (Q, R)).trace = A.trace ∧
      (qrStep (Q, R)).det = A.det ∧
      ∀ μ : ℝ, (qrStep (Q, R) - μ • 1).det = (A - μ • 1).det := by
  have hdet1 : Q.det * Q.det = 1 := by
    have hc := congrArg Matrix.det hQ
    rwa [Matrix.det_mul, Matrix.det_transpose, Matrix.det_one] at hc
  have hu : IsUnit Q.det := isUnit_of_mul_eq_one _ _ hdet1
  have hQinv : Q⁻¹ = Q.transpose := Matrix.inv_eq_left_inv hQ
  have hQiQ : Q⁻¹ * Q = 1 := by
    rw [hQinv]
    exact hQ
  have hQQi : Q * Q⁻¹ = 1 := Matrix.mul_nonsing_inv Q hu
  have hdi : Q⁻¹.det * Q.det = 1 := by
    rw [← Matrix.det_mul, hQiQ, Matrix.det_one]
  have hstep : qrStep (Q, R) = Q⁻¹ * A * Q := by
    show R * Q = Q⁻¹ * A * Q
    rw [← hA, ← Matrix.mul_assoc, hQiQ, Matrix.one_mul]
  refine ⟨hstep, ?_, ?_, ?_⟩
  · rw [hstep, Matrix.trace_mul_comm, ← Matrix.mul_assoc, hQQi, Matrix.one_mul]
  · rw [hstep, Matrix.det_mul, Matrix.det_mul]
    calc Q⁻¹.det * A.det * Q.det = Q⁻¹.det * Q.det * A.det := by ring
    _ = A.det := by rw [hdi, one_mul]
  · intro μ
    have hone : Q⁻¹ * (μ • (1 : Matrix (Fin n) (Fin n) ℝ)) * Q
        = μ • (1 : Matrix (Fin n) (Fin n) ℝ) := by
      rw [Matrix.mul_smul, Matrix.smul_mul, Matrix.mul_one, hQiQ]
    have hconj : qrStep (Q, R) - μ • 1 = Q⁻¹ * (A - μ • 1) * Q := by
      rw [Matrix.mul_sub, Matrix.sub_mul, hone, hstep]
    rw [hconj, Matrix.det_mul, Matrix.det_mul]
    calc Q⁻¹.det * (A - μ • 1).det * Q.det
        = Q⁻¹.det * Q.det * (A - μ • 1).det := by ring
    _ = (A - μ • 1).det := by rw [hdi, one_mul]

theorem C6_qrStep_similarity_witness :
    ((1 : Matrix (Fin 2) (Fin 2) ℝ).transpose * 1 = 1) ∧
      ((1 : Matrix (Fin 2) (Fin 2) ℝ) * 1 = (1 : Matrix (Fin 2) (Fin 2) ℝ)) ∧
      (qrStep ((1 : Matrix (Fin 2) (Fin 2) ℝ), (1 : Matrix (Fin 2) (Fin 2) ℝ))
          = (1 : Matrix (Fin 2) (Fin 2) ℝ)⁻¹ * 1 * 1 ∧
        (qrStep ((1 : Matrix (Fin 2) (Fin 2) ℝ),
            (1 : Matrix (Fin 2) (Fin 2) ℝ))).trace
          = (1 : Matrix (Fin 2) (Fin 2) ℝ).trace ∧
        (qrStep ((1 : Matrix (Fin 2) (Fin 2) ℝ),
            (1 : Matrix (Fin 2) (Fin 2) ℝ))).det
          = (1 : Matrix (Fin 2) (Fin 2) ℝ).det ∧
        ∀ μ : ℝ,
          (qrStep ((1 : Matrix (Fin 2) (Fin 2) ℝ),
              (1 : Matrix (Fin 2) (Fin 2) ℝ)) - μ • 1).det
            = ((1 : Matrix (Fin 2) (Fin 2) ℝ) - μ • 1).det) :=
  ⟨by simp, by simp, C6_qrStep_similarity 1 1 1 (by simp) (by simp)⟩

/-! ## Claims C7, C10: output of a terminating run -/

/-- C7 (amended): whenever the loop terminates, the final iterate satisfies
the convergence predicate, and the reported value is the ascending-sorted
list of its diagonal entries. -/
theorem C7_qr_converged_and_sorted_diag {n : ℕ}
    (qr : Matrix (Fin n) (Fin n) ℝ → Matrix (Fin n) (Fin n) ℝ × Matrix (Fin n) (Fin n) ℝ)
    (epsilon : ℝ) (fuel : ℕ) (A B : Matrix (Fin n) (Fin n) ℝ)
    (h : qrLoop qr epsilon fuel A = some B) :
    frobNorm (tril1 B) ≤ epsilon * frobNorm B ∧
      qrAlg qr epsilon fuel A = some ((diagList B).insertionSort (· ≤ ·)) := by
  induction fuel generalizing A with
  | zero =>
    rw [qrLoop] at h
    by_cases hc : frobNorm (tril1 A) ≤ epsilon * frobNorm A
    · rw [if_pos hc] at h
      obtain rfl : A = B := Option.some.inj h
      refine ⟨hc, ?_⟩
      rw [qrAlg, qrLoop, if_pos hc, Option.map_some']
    · rw [if_neg hc] at h
      exact Option.noConfusion h
  | succ fuel ih =>
    rw [qrLoop] at h
    by_cases hc : frobNorm (tril1 A) ≤ epsilon * frobNorm A
    · rw [if_pos hc] at h
      obtain rfl : A = B := Option.some.inj h
      refine ⟨hc, ?_⟩
      rw [qrAlg, qrLoop, if_pos hc, Option.map_some']
    · rw [if_neg hc] at h
      obtain ⟨h1, h2⟩ := ih _ h
      refine ⟨h1, ?_⟩
      rw [qrAlg, qrLoop, if_neg hc]
      rw [qrAlg] at h2
      exact h2

theorem tril1_dMat : tril1 dMat = 0 := by
  ext i j
  fin_cases i <;> fin_cases j <;>
    simp [tril1, dMat, Matrix.zero_apply]

theorem dMat_converged : frobNorm (tril1 dMat) ≤ (1 / 2) * frobNorm dMat := by
  rw [tril1_dMat]
  have h0 : frobNorm (0 : Matrix (Fin 2) (Fin 2) ℝ) = 0 := by
    simp [frobNorm]
  rw [h0, frobNorm]
  positivity

theorem qrLoop_dMat : qrLoop qrId (1 / 2) 0 dMat = some dMat := by
  rw [qrLoop, if_pos dMat_converged]

theorem diagList_dMat : diagList dMat = [2, 1] := by
  simp [diagList, dMat, List.ofFn_succ]

theorem qrAlg_dMat : qrAlg qrId (1 / 2) 0 dMat = some [1, 2] := by
  rw [qrAlg, qrLoop_dMat, Option.map_some', diagList_dMat]
  norm_num [List.insertionSort, List.orderedInsert]

/-- C7 counterexample to the claim as stated: on the diagonal matrix with
diagonal sequence `[2, 1]` the loop terminates at once, but the reported
value is the sorted list `[1, 2]`, not the diagonal sequence `[2, 1]` of
the final iterate. -/
theorem C7_counterexample :
    qrAlg qrId (1 / 2) 0 dMat = some [1, 2] ∧ diagList dMat = [2, 1] ∧
      [(1 : ℝ), 2] ≠ [2, 1] := by
  refine ⟨qrAlg_dMat, diagList_dMat, ?_⟩
  intro h
  have := List.head_eq_of_cons_eq h
  norm_num at this

theorem C7_qr_converged_and_sorted_diag_witness :
    qrLoop qrId (1 / 2) 0 dMat = some dMat ∧
      (frobNorm (tril1 dMat) ≤ (1 / 2) * frobNorm dMat ∧
        qrAlg qrId (1 / 2) 0 dMat
          = some ((diagList dMat).insertionSort (· ≤ ·))) :=
  ⟨qrLoop_dMat,
    C7_qr_converged_and_sorted_diag qrId (1 / 2) 0 dMat dMat qrLoop_dMat⟩

/-- C10: whenever the loop terminates, the reported sequence of approximate
eigenvalues is sorted in ascending order (the code sorts the diagonal
before printing). -/
theorem C10_qr_output_sorted {n : ℕ}
    (qr : Matrix (Fin n) (Fin n) ℝ → Matrix (Fin n) (Fin n) ℝ × Matrix (Fin n) (Fin n) ℝ)
    (epsilon : ℝ) (fuel : ℕ) (A : Matrix (Fin n) (Fin n) ℝ) (out : List ℝ)
    (h : qrAlg qr epsilon fuel A = some out) :
    out.Sorted (· ≤ ·) := by
  rw [qrAlg] at h
  obtain ⟨M, _, rfl⟩ := Option.map_eq_some'.mp h
  exact List.sorted_insertionSort _ _

theorem C10_qr_output_sorted_witness :
    qrAlg qrId (1 / 2) 0 dMat = some [1, 2] ∧
      ([(1 : ℝ), 2]).Sorted (· ≤ ·) :=
  ⟨qrAlg_dMat, C10_qr_output_sorted qrId (1 / 2) 0 dMat [1, 2] qrAlg_dMat⟩

/-! ## Claim C8: the loop has no iteration bound -/

theorem qrStep_qrSpin {n : ℕ} (M : Matrix (Fin n) (Fin n) ℝ) :
    qrStep (qrSpin M) = M := by
  simp [qrStep, qrSpin, Matrix.one_mul]

theorem frobNorm_tril1_rotM : frobNorm (tril1 rotM) = 1 := by
  have hs : (∑ i, ∑ j, ((tril1 rotM) i j) ^ 2) = 1 := by
    rw [Fin.sum_univ_two, Fin.sum_univ_two, Fin.sum_univ_two]
    norm_num [tril1, rotM]
  rw [frobNorm, hs, Real.sqrt_one]

theorem frobNorm_rotM : frobNorm rotM = Real.sqrt 2 := by
  have hs : (∑ i, ∑ j, (rotM i j) ^ 2) = 2 := by
    rw [Fin.sum_univ_two, Fin.sum_univ_two, Fin.sum_univ_two]
    norm_num [rotM]
  rw [frobNorm, hs]

theorem rotM_not_converged :
    ¬ frobNorm (tril1 rotM) ≤ eps8 * frobNorm rotM := by
  rw [frobNorm_tril1_rotM, frobNorm_rotM, eps8]
  intro hle
  have h2 : Real.sqrt 2 < 2 :=
    (Real.sqrt_lt' (by norm_num)).mpr (by norm_num)
  nlinarith [Real.sqrt_nonneg 2]

theorem qrLoop_spin_rotM : ∀ fuel : ℕ, qrLoop qrSpin eps8 fuel rotM = none
  | 0 => by
    rw [qrLoop, if_neg rotM_not_converged]
  | fuel + 1 => by
    rw [qrLoop, if_neg rotM_not_converged, qrStep_qrSpin]
    exact qrLoop_spin_rotM fuel

/-- C8 (amended): the code's loop has no `max_iterations` bound and no
`NonConvergenceError`: on the oscillatory rotation matrix (complex
conjugate eigenvalues `±i`), with the injected factorization returning the
genuine QR pair `(rotM, I)` of the iterate, the loop condition never
becomes true, so the run produces no result after any finite number of
steps — it loops indefinitely. -/
theorem C8_qr_no_iteration_bound :
    rotM.transpose * rotM = 1 ∧
      ∀ fuel : ℕ, qrAlg qrSpin eps8 fuel rotM = none := by
  constructor
  · ext i j
    rw [Matrix.mul_apply, Fin.sum_univ_two, Matrix.transpose_apply,
      Matrix.transpose_apply]
    fin_cases i <;> fin_cases j <;>
      norm_num [rotM, Matrix.one_apply]
  · intro fuel
    rw [qrAlg, qrLoop_spin_rotM, Option.map_none']

/-- C8 counterexample to the claim as stated: there is no finite step bound
within which the run on the oscillatory matrix terminates — in particular
no `NonConvergenceError` (nor any other outcome) is ever reported. -/
theorem C8_counterexample :
    ¬ ∃ (fuel : ℕ) (out : List ℝ), qrAlg qrSpin eps8 fuel rotM = some out := by
  rintro ⟨fuel, out, hout⟩
  rw [qrAlg, qrLoop_spin_rotM, Option.map_none'] at hout
  exact Option.noConfusion hout

/-! ## Claim C3: the Axler 6.B.5 demonstration -/

/-- Exact value of the integral of a quartic over `[0, 1]`, the only
integration facts the demonstration needs. -/
theorem integral_poly4 (a b c d e : ℝ) :
    (∫ t in (0:ℝ)..1, (a + b * t ^ 1 + c * t ^ 2 + d * t ^ 3 + e * t ^ 4))
      = a + b / 2 + c / 3 + d / 4 + e / 5 := by
  have hc : ∀ (r : ℝ) (k : ℕ), IntervalIntegrable (fun t : ℝ => r * t ^ k)
      MeasureTheory.volume 0 1 := fun r k =>
    (intervalIntegral.intervalIntegrable_pow k).const_mul r
  have h0 : IntervalIntegrable (fun _ : ℝ => a) MeasureTheory.volume 0 1 :=
    intervalIntegrable_const
  rw [intervalIntegral.integral_add (((h0.add (hc b 1)).add (hc c 2)).add
      (hc d 3)) (hc e 4),
    intervalIntegral.integral_add ((h0.add (hc b 1)).add (hc c 2)) (hc d 3),
    intervalIntegral.integral_add (h0.add (hc b 1)) (hc c 2),
    intervalIntegral.integral_add h0 (hc b 1),
    intervalIntegral.integral_const,
    intervalIntegral.integral_const_mul, intervalIntegral.integral_const_mul,
    intervalIntegral.integral_const_mul, intervalIntegral.integral_const_mul,
    integral_pow, integral_pow, integral_pow, integral_pow]
  norm_num
  ring

theorem innPoly_one_one : innPoly 1 1 = 1 := by
  rw [innPoly]
  have h : Set.EqOn (fun t : ℝ => (1 : ℝ[X]).eval t * (1 : ℝ[X]).eval t)
      (fun t : ℝ => 1 + 0 * t ^ 1 + 0 * t ^ 2 + 0 * t ^ 3 + 0 * t ^ 4)
      (Set.uIcc (0:ℝ) 1) := by
    intro t _
    simp
  rw [intervalIntegral.integral_congr h, integral_poly4]
  norm_num

theorem innPoly_X_one : innPoly X 1 = 1 / 2 := by
  rw [innPoly]
  have h : Set.EqOn (fun t : ℝ => (X : ℝ[X]).eval t * (1 : ℝ[X]).eval t)
      (fun t : ℝ => 0 + 1 * t ^ 1 + 0 * t ^ 2 + 0 * t ^ 3 + 0 * t ^ 4)
      (Set.uIcc (0:ℝ) 1) := by
    intro t _
    simp
  rw [intervalIntegral.integral_congr h, integral_poly4]
  norm_num

theorem innPoly_shift_sq :
    innPoly (X - C (1 / 2)) (X - C (1 / 2)) = 1 / 12 := by
  rw [innPoly]
  have h : Set.EqOn
      (fun t : ℝ => (X - C (1 / 2) : ℝ[X]).eval t * (X - C (1 / 2) : ℝ[X]).eval t)
      (fun t : ℝ => 1 / 4 + (-1) * t ^ 1 + 1 * t ^ 2 + 0 * t ^ 3 + 0 * t ^ 4)
      (Set.uIcc (0:ℝ) 1) := by
    intro t _
    simp
    ring
  rw [intervalIntegral.integral_congr h, integral_poly4]
  norm_num

theorem innPoly_X2_one : innPoly (X ^ 2) 1 = 1 / 3 := by
  rw [innPoly]
  have h : Set.EqOn (fun t : ℝ => (X ^ 2 : ℝ[X]).eval t * (1 : ℝ[X]).eval t)
      (fun t : ℝ => 0 + 0 * t ^ 1 + 1 * t ^ 2 + 0 * t ^ 3 + 0 * t ^ 4)
      (Set.uIcc (0:ℝ) 1) := by
    intro t _
    simp
  rw [intervalIntegral.integral_congr h, integral_poly4]
  norm_num

theorem innPoly_res2 :
    innPoly (X ^ 2 - C (1 / 3)) (C (2 * Real.sqrt 3) * (X - C (1 / 2)))
      = Real.sqrt 3 / 6 := by
  rw [innPoly]
  have h : Set.EqOn
      (fun t : ℝ => (X ^ 2 - C (1 / 3) : ℝ[X]).eval t
        * (C (2 * Real.sqrt 3) * (X - C (1 / 2)) : ℝ[X]).eval t)
      (fun t : ℝ => Real.sqrt 3 / 3 + (-(2 * Real.sqrt 3 / 3)) * t ^ 1
        + (-Real.sqrt 3) * t ^ 2 + (2 * Real.sqrt 3) * t ^ 3 + 0 * t ^ 4)
      (Set.uIcc (0:ℝ) 1) := by
    intro t _
    simp
    ring
  rw [intervalIntegral.integral_congr h, integral_poly4]
  ring

theorem innPoly_res3_sq :
    innPoly (X ^ 2 - X + C (1 / 6)) (X ^ 2 - X + C (1 / 6)) = 1 / 180 := by
  rw [innPoly]
  have h : Set.EqOn
      (fun t : ℝ => (X ^ 2 - X + C (1 / 6) : ℝ[X]).eval t
        * (X ^ 2 - X + C (1 / 6) : ℝ[X]).eval t)
      (fun t : ℝ => 1 / 36 + (-(1 / 3)) * t ^ 1 + (4 / 3) * t ^ 2
        + (-2) * t ^ 3 + 1 * t ^ 4)
      (Set.uIcc (0:ℝ) 1) := by
    intro t _
    simp
    ring
  rw [intervalIntegral.integral_congr h, integral_poly4]
  norm_num

theorem sqrt_twelfth_inv : (Real.sqrt (1 / 12))⁻¹ = 2 * Real.sqrt 3 := by
  rw [one_div, Real.sqrt_inv, inv_inv,
    show (12 : ℝ) = 2 ^ 2 * 3 by norm_num,
    Real.sqrt_mul (by positivity), Real.sqrt_sq (by norm_num)]

theorem sqrt_inv_of_180 : (Real.sqrt (1 / 180))⁻¹ = 6 * Real.sqrt 5 := by
  rw [one_div, Real.sqrt_inv, inv_inv,
    show (180 : ℝ) = 6 ^ 2 * 5 by norm_num,
    Real.sqrt_mul (by positivity), Real.sqrt_sq (by norm_num)]

/-- First step of the demonstration: the input `1` normalizes to `1`. -/
theorem GS_axler_e1 :
    (nrm innPoly (orthoStep innPoly [] (1 : ℝ[X])))⁻¹
        • orthoStep innPoly [] (1 : ℝ[X]) = (1 : ℝ[X]) := by
  rw [orthoStep_nil, nrm, innPoly_one_one, Real.sqrt_one, inv_one, one_smul]

/-- Second step, residual: `x` minus its projection onto `1`. -/
theorem GS_axler_w2 :
    orthoStep innPoly [(1 : ℝ[X])] X = X - C (1 / 2) := by
  show innerStep innPoly X 1 = _
  rw [innerStep, innPoly_X_one, Polynomial.smul_eq_C_mul, mul_one]

/-- Second step: the normalized residual is `2√3 (x - 1/2)`. -/
theorem GS_axler_e2 :
    (nrm innPoly (orthoStep innPoly [(1 : ℝ[X])] X))⁻¹
        • orthoStep innPoly [(1 : ℝ[X])] X
      = C (2 * Real.sqrt 3) * (X - C (1 / 2)) := by
  rw [GS_axler_w2, nrm, innPoly_shift_sq, sqrt_twelfth_inv,
    Polynomial.smul_eq_C_mul]

/-- Third step, residual: `x^2` minus its projections onto `1` and then
onto `2√3 (x - 1/2)`, sequentially. -/
theorem GS_axler_w3 :
    orthoStep innPoly [(1 : ℝ[X]), C (2 * Real.sqrt 3) * (X - C (1 / 2))]
        (X ^ 2)
      = X ^ 2 - X + C (1 / 6) := by
  show innerStep innPoly (innerStep innPoly (X ^ 2) 1)
      (C (2 * Real.sqrt 3) * (X - C (1 / 2))) = _
  have hu1 : innerStep innPoly (X ^ 2) (1 : ℝ[X]) = X ^ 2 - C (1 / 3) := by
    rw [innerStep, innPoly_X2_one, Polynomial.smul_eq_C_mul, mul_one]
  rw [hu1, innerStep, innPoly_res2, Polynomial.smul_eq_C_mul, ← mul_assoc,
    ← Polynomial.C_mul]
  have hcoef : Real.sqrt 3 / 6 * (2 * Real.sqrt 3) = 1 := by
    have h3 : Real.sqrt 3 * Real.sqrt 3 = 3 :=
      Real.mul_self_sqrt (by norm_num)
    nlinarith [h3]
  rw [hcoef, Polynomial.C_1, one_mul]
  calc (X ^ 2 - C (1 / 3) - (X - C (1 / 2)) : ℝ[X])
      = X ^ 2 - X + (C (1 / 2) - C (1 / 3)) := by ring
  _ = X ^ 2 - X + C (1 / 6) := by
      rw [← Polynomial.C_sub]
      norm_num

/-- Third step: the normalized residual is `6√5 (x^2 - x + 1/6)`. -/
theorem GS_axler_e3 :
    (nrm innPoly (orthoStep innPoly
        [(1 : ℝ[X]), C (2 * Real.sqrt 3) * (X - C (1 / 2))] (X ^ 2)))⁻¹
      • orthoStep innPoly
          [(1 : ℝ[X]), C (2 * Real.sqrt 3) * (X - C (1 / 2))] (X ^ 2)
      = C (6 * Real.sqrt 5) * (X ^ 2 - X + C (1 / 6)) := by
  rw [GS_axler_w3, nrm, innPoly_res3_sq, sqrt_inv_of_180,
    Polynomial.smul_eq_C_mul]

/-- C3: on the concrete input list `1, x, x^2` under the inner product
`∫₀¹ f(x) g(x) dx`, `GS` returns exactly the list
`[1, 2√3 (x - 1/2), 6√5 (x^2 - x + 1/6)]`, in that order. -/
theorem C3_GS_axler_demo :
    GS innPoly [(1 : ℝ[X]), X, X ^ 2]
      = [1, C (2 * Real.sqrt 3) * (X - C (1 / 2)),
          C (6 * Real.sqrt 5) * (X ^ 2 - X + C (1 / 6))] := by
  simp only [GS, GSgo, List.nil_append, List.cons_append]
  rw [GS_axler_e1]
  rw [GS_axler_e2]
  rw [GS_axler_e3]
